import Mathlib

/-!
Verification of the attention-mechanism grading pipeline
(`src/notebook_executor.py`, `src/llm_integration.py`,
`src/reference_attention.py`, `src/evaluation.py`).

The Python modules are shallowly embedded: namespaces become association
lists, notebook cells carry their source text together with the
binding-level effect of `exec` (the names a cell assigns, and whether it
raises), wall-clock instants become natural-number seconds, and float
tensors are idealised as lists of real-number rows.
-/

/-! ## String helpers

Python string operations used by the source, re-implemented over `List Char`
so that every definition evaluates by kernel reduction.  `isPySpace` is the
ASCII part of Python's `str.isspace` / regex `\s` class. -/

def isPySpace (c : Char) : Bool :=
  c = ' ' || c = '\t' || c = '\n' || c = '\r' || c = '\x0b' || c = '\x0c'

/-- Python `str.strip()` over a char list: drop whitespace from both ends. -/
def stripChars (l : List Char) : List Char :=
  ((l.dropWhile isPySpace).reverse.dropWhile isPySpace).reverse

/-- Python `str.strip()`. -/
def pyStrip (s : String) : List Char :=
  stripChars s.toList

/-- Python `pat in s` (substring containment) over char lists. -/
def containsSeq (pat : List Char) : List Char → Bool
  | [] => pat.isEmpty
  | c :: cs => pat.isPrefixOf (c :: cs) || containsSeq pat cs

/-- Python `s.split(sep)` for a single-character separator. -/
def splitOnChar (sep : Char) (s : List Char) : List (List Char) :=
  match s with
  | [] => [[]]
  | c :: cs =>
    let rest := splitOnChar sep cs
    if c = sep then [] :: rest
    else match rest with
      | [] => [[c]]
      | r :: rs => (c :: r) :: rs

/-! ## Notebook executor (`src/notebook_executor.py`)

`NotebookExecutor._extract_code_cells` keeps only code cells and stores
`original_index = len(cells)`, i.e. the position among code cells, so a
cell's code ordinal is its position in the list.  A `Cell` carries the raw
source text plus the binding-level effect of `exec`: the sequence of names
the cell assigns (with opaque values modelled as `Nat`) and whether
execution raises.  Deletion of bindings (`del`) is not modelled; `exec` on
a copied dict adds or overwrites the assigned names. -/

structure Cell where
  source : String
  assigns : List (String × Nat)
  fails : Bool
deriving Repr, DecidableEq

/-- An execution namespace: identifier-to-value bindings, most recent first. -/
abbrev Namespace := List (String × Nat)

/-- Namespace membership, Python `name in context`. -/
def nsContains (ctx : Namespace) (k : String) : Bool :=
  (ctx.lookup k).isSome

/-- Effect of successfully running a cell's assignments over a namespace
copy: each assignment binds (or rebinds) its name, last assignment wins. -/
def executeCell (ctx : Namespace) (assigns : List (String × Nat)) : Namespace :=
  assigns.foldl (fun c kv => (kv.1, kv.2) :: c) ctx

/-- Model of `NotebookExecutor._safe_cell_execution`: run the cell against a copy of
the context; on success return the updated copy, on failure return the
prior context unchanged together with an error message. -/
def safe_cell_execution (c : Cell) (ctx : Namespace) : Namespace × Option String :=
  if c.fails then (ctx, some "execution failed")
  else (executeCell ctx c.assigns, none)

/-- The skip tests of the `execute_cells_until` loop: blank source, IPython
magic / shell markers, or an import of the evaluation module. -/
def cellSkipped (c : Cell) : Bool :=
  let s := pyStrip c.source
  s.isEmpty || s.head? = some '!' || s.head? = some '%'
    || containsSeq "from src.evaluation import".toList s

/-- Model of `NotebookExecutor._initialize_context`: runtime modules plus injected
helper bindings; the values model opaque runtime objects. -/
def initial_context : Namespace :=
  [("__builtins__", 0), ("__name__", 1), ("torch", 2), ("nn", 3), ("F", 4),
   ("np", 5), ("math", 6), ("tokenize_text", 7), ("create_embeddings", 8),
   ("visualize_qkv_projections", 9), ("visualize_attention_scores", 10),
   ("visualize_attention_weights", 11), ("visualize_attended_output", 12)]

/-- The `for i, cell in enumerate(self.cells)` loop of
`execute_cells_until`: break once `original_index` (= position `i`)
exceeds the target, otherwise skip or execute via
`safe_cell_execution`, keeping the prior context on failure. -/
def runFrom (target : Int) : List Cell → Nat → Namespace → Namespace
  | [], _, ctx => ctx
  | c :: rest, i, ctx =>
    if (i : Int) > target then ctx
    else if cellSkipped c then runFrom target rest (i + 1) ctx
    else runFrom target rest (i + 1) (safe_cell_execution c ctx).1

/-- Model of `NotebookExecutor.execute_cells_until` (first-call semantics; the
per-target memo cache returns a deep-copied snapshot and is elided). -/
def execute_cells_until (cells : List Cell) (target : Int) : Namespace :=
  runFrom target cells 0 initial_context

/-- The same replay with no break: every cell is processed. -/
def runAll : List Cell → Namespace → Namespace
  | [], ctx => ctx
  | c :: rest, ctx =>
    if cellSkipped c then runAll rest ctx
    else runAll rest (safe_cell_execution c ctx).1

/-! ### Executor lemmas -/

theorem nsContains_cons (k : String) (v : Nat) (ctx : Namespace) (n : String) :
    nsContains ((k, v) :: ctx) n = (n == k || nsContains ctx n) := by
  simp only [nsContains, List.lookup]
  cases h : n == k <;> simp [h]

theorem nsContains_executeCell_of_mem (ctx : Namespace) (as : List (String × Nat))
    (n : String) (h : nsContains ctx n = true) :
    nsContains (executeCell ctx as) n = true := by
  induction as generalizing ctx with
  | nil => exact h
  | cons kv rest ih =>
    apply ih
    rw [nsContains_cons, h, Bool.or_true]

theorem nsContains_executeCell_of_assigned (ctx : Namespace) (as : List (String × Nat))
    (n : String) (h : n ∈ as.map Prod.fst) :
    nsContains (executeCell ctx as) n = true := by
  induction as generalizing ctx with
  | nil => simp at h
  | cons kv rest ih =>
    simp only [List.map_cons, List.mem_cons] at h
    have hstep : executeCell ctx (kv :: rest) = executeCell ((kv.1, kv.2) :: ctx) rest := rfl
    rw [hstep]
    rcases h with h | h
    · apply nsContains_executeCell_of_mem
      rw [nsContains_cons]
      simp [h]
    · exact ih _ h

theorem nsContains_safe_cell (c : Cell) (ctx : Namespace) (n : String)
    (h : nsContains ctx n = true) :
    nsContains (safe_cell_execution c ctx).1 n = true := by
  unfold safe_cell_execution
  split
  · exact h
  · exact nsContains_executeCell_of_mem _ _ _ h

theorem nsContains_runFrom_mono (target : Int) (cs : List Cell) (i : Nat)
    (ctx : Namespace) (n : String) (h : nsContains ctx n = true) :
    nsContains (runFrom target cs i ctx) n = true := by
  induction cs generalizing i ctx with
  | nil => exact h
  | cons c rest ih =>
    unfold runFrom
    split
    · exact h
    · split
      · exact ih _ _ h
      · exact ih _ _ (nsContains_safe_cell c ctx n h)

theorem nsContains_runFrom_of_cell (target : Int) (n : String) :
    ∀ (cs : List Cell) (i : Nat) (ctx : Namespace) (j : Nat) (c : Cell),
      cs[j]? = some c → ((i : Int) + j ≤ target) →
      cellSkipped c = false → c.fails = false →
      n ∈ c.assigns.map Prod.fst →
      nsContains (runFrom target cs i ctx) n = true := by
  intro cs
  induction cs with
  | nil => intro i ctx j c hj; simp at hj
  | cons c0 rest ih =>
    intro i ctx j c hj hle hskip hfail hmem
    have hno : ¬ ((i : Int) > target) := by
      have : (i : Int) ≤ (i : Int) + j := by
        have : (0 : Int) ≤ (j : Int) := Int.ofNat_nonneg j
        omega
      omega
    cases j with
    | zero =>
      have hc : c0 = c := by simpa using hj
      unfold runFrom
      rw [if_neg hno, hc]
      simp only [hskip, Bool.false_eq_true, if_false]
      have hrun : (safe_cell_execution c ctx).1 = executeCell ctx c.assigns := by
        simp [safe_cell_execution, hfail]
      rw [hrun]
      exact nsContains_runFrom_mono _ _ _ _ _
        (nsContains_executeCell_of_assigned _ _ _ hmem)
    | succ j' =>
      simp only [List.getElem?_cons_succ] at hj
      have hle' : ((i + 1 : Nat) : Int) + j' ≤ target := by
        push_cast at hle ⊢
        omega
      unfold runFrom
      rw [if_neg hno]
      split
      · exact ih (i + 1) ctx j' c hj hle' hskip hfail hmem
      · exact ih (i + 1) _ j' c hj hle' hskip hfail hmem

theorem runFrom_eq_runAll (target : Int) :
    ∀ (cs : List Cell) (i : Nat) (ctx : Namespace),
      ((i : Int) + cs.length ≤ target + 1) →
      runFrom target cs i ctx = runAll cs ctx := by
  intro cs
  induction cs with
  | nil => intro i ctx _; rfl
  | cons c rest ih =>
    intro i ctx h
    have hno : ¬ ((i : Int) > target) := by
      simp only [List.length_cons] at h
      push_cast at h
      omega
    have h' : (((i + 1 : Nat)) : Int) + rest.length ≤ target + 1 := by
      simp only [List.length_cons] at h
      push_cast at h ⊢
      omega
    unfold runFrom runAll
    rw [if_neg hno]
    split
    · exact ih (i + 1) ctx h'
    · exact ih (i + 1) _ h'

/-! ### Claim C1 — per-cell failure isolation during replay -/

/-- C1: during context replay a failing cell leaves the working namespace
exactly as it was (`_safe_cell_execution` returns the prior context), and
replay continues: for a notebook whose cell at ordinal `k` fails,
`execute_cells_until (k+1)` still contains every binding established by
the successful executed cells with ordinal `< k`, plus any bindings cell
`k+1` successfully produces. -/
theorem executor_failed_cell_preserves_bindings
    (cells : List Cell) (k : Nat) (ck : Cell)
    (hk : cells[k]? = some ck) (hkfail : ck.fails = true) :
    (∀ (c : Cell) (ctx : Namespace), c.fails = true →
        (safe_cell_execution c ctx).1 = ctx) ∧
    (∀ (j : Nat) (cj : Cell) (n : String), j < k → cells[j]? = some cj →
        cellSkipped cj = false → cj.fails = false → n ∈ cj.assigns.map Prod.fst →
        nsContains (execute_cells_until cells ((k : Int) + 1)) n = true) ∧
    (∀ (cn : Cell) (n : String), cells[k + 1]? = some cn →
        cellSkipped cn = false → cn.fails = false → n ∈ cn.assigns.map Prod.fst →
        nsContains (execute_cells_until cells ((k : Int) + 1)) n = true) := by
  refine ⟨?_, ?_, ?_⟩
  · intro c ctx hf
    simp [safe_cell_execution, hf]
  · intro j cj n hjk hj hskip hfail hmem
    exact nsContains_runFrom_of_cell _ n cells 0 initial_context j cj hj
      (by push_cast; omega) hskip hfail hmem
  · intro cn n hn hskip hfail hmem
    exact nsContains_runFrom_of_cell _ n cells 0 initial_context (k + 1) cn hn
      (by push_cast; omega) hskip hfail hmem

/-- A three-cell notebook: a successful assignment, a raising cell, and a
later successful assignment. -/
def demoCells : List Cell :=
  [{ source := "x = 1", assigns := [("x", 1)], fails := false },
   { source := "raise ValueError(0)", assigns := [], fails := true },
   { source := "y = 2", assigns := [("y", 2)], fails := false }]

theorem executor_failed_cell_preserves_bindings_witness :
    nsContains (execute_cells_until demoCells ((1 : Nat) + 1 : Int)) "x" = true ∧
    nsContains (execute_cells_until demoCells ((1 : Nat) + 1 : Int)) "y" = true := by
  have h := executor_failed_cell_preserves_bindings demoCells 1
    { source := "raise ValueError(0)", assigns := [], fails := true } rfl rfl
  exact ⟨h.2.1 0 _ "x" (by decide) rfl (by decide) rfl (by decide),
         h.2.2 _ "y" rfl (by decide) rfl (by decide)⟩

/-! ### Claim C2 — malformed target ordinals -/

/-- C2 counterexample: the claim says every malformed target (negative
included) is clamped to executing all available cells; in the code the
loop breaks at the first cell because `original_index 0 > target` for any
negative target, so no cell runs: with a one-cell notebook assigning `x`,
a replay with target `-1` lacks `x` while the full replay has it. -/
theorem negative_target_executes_no_cells_counterexample :
    nsContains (execute_cells_until [⟨"x = 1", [("x", 1)], false⟩] (-1)) "x" = false ∧
    nsContains (execute_cells_until [⟨"x = 1", [("x", 1)], false⟩] 0) "x" = true := by
  decide

/-- C2 amended: a target ordinal that exceeds every existing code-cell
ordinal is clamped to executing all available cells (the replay equals the
full-notebook replay), but a negative target executes no cells at all and
returns just the initialized base context. -/
theorem execute_cells_until_target_clamping (cells : List Cell) (t : Int) :
    (t < 0 → execute_cells_until cells t = initial_context) ∧
    ((cells.length : Int) - 1 ≤ t →
      execute_cells_until cells t
        = execute_cells_until cells ((cells.length : Int) - 1)) := by
  constructor
  · intro ht
    cases cells with
    | nil => rfl
    | cons c rest =>
      unfold execute_cells_until runFrom
      rw [if_pos (by push_cast; omega)]
  · intro ht
    unfold execute_cells_until
    rw [runFrom_eq_runAll t cells 0 initial_context (by push_cast; omega),
        runFrom_eq_runAll ((cells.length : Int) - 1) cells 0 initial_context
          (by push_cast; omega)]

theorem execute_cells_until_target_clamping_witness :
    ((-1 : Int) < 0 ∧ execute_cells_until demoCells (-1) = initial_context) ∧
    ((demoCells.length : Int) - 1 ≤ 99 ∧
      execute_cells_until demoCells 99
        = execute_cells_until demoCells ((demoCells.length : Int) - 1)) := by
  refine ⟨⟨by decide, (execute_cells_until_target_clamping demoCells (-1)).1 (by decide)⟩,
         ⟨by decide, (execute_cells_until_target_clamping demoCells 99).2 (by decide)⟩⟩

/-! ## Function locator (`NotebookExecutor.find_function_cell`)

The Python regex is `^\s*def\s+NAME\s*\(` with `re.MULTILINE`: the anchor
matches at the string start or right after any newline; `\s` is the
whitespace class (newlines included).  `matchHeaderFrom` is the greedy
match from one anchor, which coincides with the regex semantics whenever
the function name does not itself start with whitespace (names are Python
identifiers). -/

def matchHeaderFrom (name : String) (cs : List Char) : Bool :=
  match cs.dropWhile isPySpace with
  | 'd' :: 'e' :: 'f' :: cs2 =>
    match cs2 with
    | c :: cs3 =>
      isPySpace c &&
        (let cs4 := cs3.dropWhile isPySpace
         name.toList.isPrefixOf cs4 &&
           (match (cs4.drop name.length).dropWhile isPySpace with
            | '(' :: _ => true
            | _ => false))
    | [] => false
  | _ => false

/-- Search of the multiline-anchored pattern via `re.search` over a cell source: try
the string start and every position following a newline. -/
def searchDefHeader (name : String) (src : String) : Bool :=
  matchHeaderFrom name src.toList || go src.toList
where
  go : List Char → Bool
    | [] => false
    | c :: rest => (c = '\n' && matchHeaderFrom name rest) || go rest

/-- The loop of `find_function_cell`: return the `original_index`
(= position among code cells) of the first matching cell, else `-1`. -/
def findCellAux (name : String) : List Cell → Nat → Int
  | [], _ => -1
  | c :: rest, i =>
    if searchDefHeader name c.source then (i : Int) else findCellAux name rest (i + 1)

/-- Model of `NotebookExecutor.find_function_cell`. -/
def find_function_cell (cells : List Cell) (name : String) : Int :=
  findCellAux name cells 0

theorem findCellAux_succ (name : String) (cs : List Cell) (i : Nat) :
    ∀ (j : Nat) (c : Cell), cs[j]? = some c → searchDefHeader name c.source = true →
      (∀ (j' : Nat) (c' : Cell), j' < j → cs[j']? = some c' →
        searchDefHeader name c'.source = false) →
      findCellAux name cs i = ((i + j : Nat) : Int) := by
  induction cs generalizing i with
  | nil => intro j c hj; simp at hj
  | cons c0 rest ih =>
    intro j c hj hmatch hfirst
    cases j with
    | zero =>
      have hc : c0 = c := by simpa using hj
      unfold findCellAux
      rw [hc, if_pos hmatch]
      norm_num
    | succ j' =>
      have h0 : searchDefHeader name c0.source = false :=
        hfirst 0 c0 (Nat.succ_pos j') (by simp)
      unfold findCellAux
      rw [if_neg (by simp [h0])]
      have := ih (i + 1) j' c (by simpa using hj)
        hmatch (fun j'' c'' hlt hj'' => hfirst (j'' + 1) c'' (by omega) (by simpa using hj''))
      rw [this]
      congr 1
      omega

theorem findCellAux_none (name : String) (cs : List Cell) (i : Nat)
    (h : ∀ c ∈ cs, searchDefHeader name c.source = false) :
    findCellAux name cs i = -1 := by
  induction cs generalizing i with
  | nil => rfl
  | cons c0 rest ih =>
    unfold findCellAux
    rw [if_neg (by simp [h c0 (List.mem_cons_self c0 rest)])]
    exact ih (i + 1) (fun c hc => h c (List.mem_cons_of_mem c0 hc))

/-! ### Claim C5 — locator returns the first matching cell, deterministically -/

/-- C5: `find_function_cell` returns the code-cell ordinal of the first
cell, in code-cell order, whose source matches the definition-header
pattern for the name (line-anchored, leading whitespace allowed, `def`,
the name, `(`); with multiple defining cells the first wins, a notebook
with no matching cell yields `-1`, and running the locator twice on the
same notebook returns the same ordinal. -/
theorem find_function_cell_first_match (cells : List Cell) (name : String) :
    (find_function_cell cells name = find_function_cell cells name) ∧
    ((∀ c ∈ cells, searchDefHeader name c.source = false) →
      find_function_cell cells name = -1) ∧
    (∀ (j : Nat) (c : Cell), cells[j]? = some c →
      searchDefHeader name c.source = true →
      (∀ (j' : Nat) (c' : Cell), j' < j → cells[j']? = some c' →
        searchDefHeader name c'.source = false) →
      find_function_cell cells name = (j : Int)) := by
  refine ⟨rfl, ?_, ?_⟩
  · intro h
    exact findCellAux_none name cells 0 h
  · intro j c hj hmatch hfirst
    have := findCellAux_succ name cells 0 j c hj hmatch hfirst
    simpa using this

/-- Two cells both defining `foo`; the locator must return ordinal 0. -/
def locatorDemo : List Cell :=
  [⟨"# intro\ndef foo(x):\n    return x", [("foo", 21)], false⟩,
   ⟨"def foo(x):\n    return x + 1", [("foo", 22)], false⟩,
   ⟨"z = 3", [("z", 3)], false⟩]

theorem find_function_cell_first_match_witness :
    find_function_cell locatorDemo "foo" = 0 ∧ find_function_cell locatorDemo "bar" = -1 := by
  refine ⟨(find_function_cell_first_match locatorDemo "foo").2.2 0 _ rfl (by decide) ?_, ?_⟩
  · intro j' c' hlt hj'
    omega
  · exact (find_function_cell_first_match locatorDemo "bar").2.1 (by decide)

/-! ## Context validator (`NotebookExecutor.validate_context_for_function`) -/

/-- The static required-variable table of
`validate_context_for_function`, in source order. -/
def requirements (fn : String) : List String :=
  if fn = "create_qkv_projections" then ["embeddings", "torch", "nn"]
  else if fn = "compute_attention_scores" then ["Q", "K", "torch", "math"]
  else if fn = "compute_attention_weights" then ["attention_scores", "F"]
  else if fn = "aggregate_values" then ["attention_weights", "V", "torch"]
  else []

/-- Model of `NotebookExecutor.validate_context_for_function`: the missing list is
the required names absent from the context, in table order; valid iff
nothing is missing. -/
def validate_context_for_function (fn : String) (ctx : Namespace) : Bool × List String :=
  let missing := (requirements fn).filter (fun v => !(nsContains ctx v))
  (missing.isEmpty, missing)

/-- Python string `<=`: lexicographic comparison by code point. -/
def pyStrLe (s t : String) : Bool :=
  lex s.toList t.toList
where
  lex : List Char → List Char → Bool
    | [], _ => true
    | _ :: _, [] => false
    | a :: as, b :: bs => if a = b then lex as bs else decide (a.toNat < b.toNat)

/-! ### Claim C6 — validator contract -/

/-- C6 counterexample: the claim says the missing list is sorted; for
`compute_attention_scores` with an empty namespace the code returns the
table order `["Q", "K", "torch", "math"]`, which is not in ascending
lexicographic (Python string) order. -/
theorem validate_context_missing_not_sorted :
    (validate_context_for_function "compute_attention_scores" []).2
        = ["Q", "K", "torch", "math"] ∧
    ¬ List.Chain' (fun a b => pyStrLe a b = true)
        (validate_context_for_function "compute_attention_scores" []).2 := by
  refine ⟨by decide, ?_⟩
  intro h
  rw [show (validate_context_for_function "compute_attention_scores" []).2
      = ["Q", "K", "torch", "math"] by decide, List.chain'_cons] at h
  exact absurd h.1 (by decide)

/-- C6 amended: for every function name and namespace,
`validate_context_for_function` returns `(ok, missing)` where `missing`
holds exactly the required variable names absent from the namespace, in
the order of the static requirements table (not sorted), and `ok` is true
exactly when `missing` is empty; the namespace is not modified. -/
theorem validate_context_spec (fn : String) (ctx : Namespace) :
    ((validate_context_for_function fn ctx).1 = true ↔
      (validate_context_for_function fn ctx).2 = []) ∧
    (∀ v, v ∈ (validate_context_for_function fn ctx).2 ↔
      (v ∈ requirements fn ∧ nsContains ctx v = false)) ∧
    List.Sublist (validate_context_for_function fn ctx).2 (requirements fn) := by
  refine ⟨?_, ?_, ?_⟩
  · simp [validate_context_for_function, List.isEmpty_iff]
  · intro v
    simp [validate_context_for_function, List.mem_filter]
  · simpa [validate_context_for_function] using
      List.filter_sublist (l := requirements fn) (p := fun v => !(nsContains ctx v))

/-! ## LLM verdict parsing (`LLMEvaluator._parse_text_response`)

An `EvaluationVerdict`; the wall-clock `timestamp` field of the Python
dict is not modelled. -/

structure Verdict where
  comparison_result : String
  score : Nat
  educational_feedback : String
  suggestions : List String
  understanding_check : List String
  function_name : String
deriving Repr, DecidableEq

/-- The branch cascade applied to one (stripped, lower-cased) line of the
response text: both `"correct"` and `"implementation"` present give
`correct`/85; otherwise `"incorrect"` or `"error"` give `incorrect`/25;
otherwise `"partially"` or `"almost"` give `partially_correct`/60. -/
def normLine (line : List Char) : List Char :=
  (stripChars line).map Char.toLower

def classifyLine (line : List Char) : Option (String × Nat) :=
  if containsSeq "correct".toList (normLine line)
      && containsSeq "implementation".toList (normLine line) then
    some ("correct", 85)
  else if containsSeq "incorrect".toList (normLine line)
      || containsSeq "error".toList (normLine line) then
    some ("incorrect", 25)
  else if containsSeq "partially".toList (normLine line)
      || containsSeq "almost".toList (normLine line) then
    some ("partially_correct", 60)
  else none

/-- One iteration of the `for line in lines` loop: a matching branch
overwrites the running verdict's result and score. -/
def applyLine (res : Verdict) (line : List Char) : Verdict :=
  match classifyLine line with
  | some cs => { res with comparison_result := cs.1, score := cs.2 }
  | none => res

/-- Model of `LLMEvaluator._parse_text_response`: start from the
`unknown`/50 default verdict carrying the full response as feedback, then
scan the response line by line. -/
def parse_text_response (response fn : String) : Verdict :=
  (splitOnChar '\n' response.toList).foldl applyLine
    { comparison_result := "unknown", score := 50, educational_feedback := response,
      suggestions := [], understanding_check := [], function_name := fn }

theorem foldl_applyLine (ls : List (List Char)) (v : Verdict) :
    ((ls.foldl applyLine v).comparison_result, (ls.foldl applyLine v).score)
        = (ls.filterMap classifyLine).getLastD (v.comparison_result, v.score) ∧
    (ls.foldl applyLine v).educational_feedback = v.educational_feedback ∧
    (ls.foldl applyLine v).suggestions = v.suggestions ∧
    (ls.foldl applyLine v).understanding_check = v.understanding_check ∧
    (ls.foldl applyLine v).function_name = v.function_name := by
  induction ls generalizing v with
  | nil => exact ⟨rfl, rfl, rfl, rfl, rfl⟩
  | cons l rest ih =>
    simp only [List.foldl_cons, List.filterMap_cons]
    cases h : classifyLine l with
    | none =>
      have happ : applyLine v l = v := by simp [applyLine, h]
      rw [happ]
      exact ih v
    | some cs =>
      have happ : applyLine v l
          = { v with comparison_result := cs.1, score := cs.2 } := by
        simp [applyLine, h]
      rw [happ, List.getLastD_cons]
      exact ih _

theorem lineClass_values (line : List Char) (cs : String × Nat)
    (h : classifyLine line = some cs) :
    cs = ("correct", 85) ∨ cs = ("incorrect", 25) ∨ cs = ("partially_correct", 60) := by
  unfold classifyLine at h
  split_ifs at h <;> simp_all

theorem getLastD_cases {α : Type} (l : List α) (d : α) :
    l.getLastD d ∈ l ∨ l.getLastD d = d := by
  induction l generalizing d with
  | nil => right; rfl
  | cons a rest ih =>
    rw [List.getLastD_cons]
    rcases ih a with h | h
    · left; exact List.mem_cons_of_mem a h
    · left; rw [h]; exact List.mem_cons_self a rest

/-! ### Claim C4 — heuristic text-classifier fallback -/

/-- C4 counterexample: the claim says a line containing `"incorrect"`
yields verdict `incorrect` with score 25; but `"incorrect"` contains
`"correct"` as a substring, so the single-line response
`"incorrect implementation"` takes the first branch and yields
`correct`/85 instead. -/
theorem parse_text_incorrect_implementation_counterexample :
    containsSeq "incorrect".toList
        ((stripChars "incorrect implementation".toList).map Char.toLower) = true ∧
    (parse_text_response "incorrect implementation" "fn").comparison_result = "correct" ∧
    (parse_text_response "incorrect implementation" "fn").score = 85 := by
  exact ⟨by decide, by decide, by decide⟩

/-- C4 amended: the heuristic parser scans the response line by line,
each stripped lower-cased line classified by the branch cascade of
`classifyLine` (`correct` ∧ `implementation` → correct/85, else `incorrect`
∨ `error` → incorrect/25, else `partially` ∨ `almost` →
partially_correct/60), with later matching lines overriding earlier ones;
if no line matches, the verdict is `unknown`/50.  A well-formed verdict —
result/score among the four fixed pairs, full response as feedback —
is produced from any response. -/
theorem parse_text_response_spec (r fn : String) :
    (parse_text_response r fn).educational_feedback = r ∧
    (parse_text_response r fn).function_name = fn ∧
    ((parse_text_response r fn).comparison_result, (parse_text_response r fn).score)
        = ((splitOnChar '\n' r.toList).filterMap classifyLine).getLastD ("unknown", 50) ∧
    (((parse_text_response r fn).comparison_result, (parse_text_response r fn).score)
        ∈ [("unknown", 50), ("correct", 85), ("incorrect", 25),
           ("partially_correct", 60)]) := by
  have h := foldl_applyLine (splitOnChar '\n' r.toList)
    { comparison_result := "unknown", score := 50, educational_feedback := r,
      suggestions := [], understanding_check := [], function_name := fn }
  have e : ((parse_text_response r fn).comparison_result, (parse_text_response r fn).score)
      = ((splitOnChar '\n' r.toList).filterMap classifyLine).getLastD ("unknown", 50) := h.1
  refine ⟨h.2.1, h.2.2.2.2, e, ?_⟩
  rw [e]
  rcases getLastD_cases ((splitOnChar '\n' r.toList).filterMap classifyLine)
      ("unknown", 50) with hm | hm
  · rw [List.mem_filterMap] at hm
    obtain ⟨line, _, hline⟩ := hm
    rcases lineClass_values line _ hline with h' | h' | h' <;> rw [h'] <;> simp
  · rw [hm]
    simp

/-! ## Rate limiter (`llm_integration.RateLimiter`)

Wall-clock instants are modelled as natural-number seconds; a minute is
60.  `wait_if_needed` samples `now` on entry, prunes the window, sleeps
when the pruned window is at capacity, then appends the entry timestamp.
(With `requests_per_minute = 0` the Python indexes `requests[0]` of an
empty list and raises; theorems assume at least 1.) -/

structure RateLimiter where
  requests_per_minute : Nat
  burst_limit : Nat
  requests : List Nat
deriving Repr, DecidableEq

/-- Drop timestamps a minute or more old:
`now - req_time < timedelta(minutes=1)`. -/
def pruneRequests (now : Nat) (reqs : List Nat) : List Nat :=
  reqs.filter (fun t => now - t < 60)

/-- Seconds slept by `wait_if_needed`: when the pruned window is at
capacity, sleep until the oldest pruned timestamp (`self.requests[0]`)
is a full minute old. -/
def sleepNeeded (rl : RateLimiter) (now : Nat) : Nat :=
  if rl.requests_per_minute ≤ (pruneRequests now rl.requests).length then
    60 - (now - (pruneRequests now rl.requests).headD 0)
  else 0

/-- Model of `RateLimiter.wait_if_needed`: prune, maybe sleep, then record the
entry time `now`; returns the updated limiter and the seconds slept. -/
def wait_if_needed (rl : RateLimiter) (now : Nat) : RateLimiter × Nat :=
  ({ rl with requests := pruneRequests now rl.requests ++ [now] }, sleepNeeded rl now)

/-- Temporal validity of a call trace: each call's entry time is no
earlier than the previous call's wake-up time (entry plus sleep) —
single-threaded callers cannot re-enter while asleep. -/
def traceValid : RateLimiter → Nat → List Nat → Prop
  | _, _, [] => True
  | rl, tprev, t :: ts =>
    tprev ≤ t ∧ traceValid (wait_if_needed rl t).1 (t + (wait_if_needed rl t).2) ts

/-- The claimed properties at every call of a trace: after pruning at
most `requests_per_minute` timestamps remain, and by wake-up time the
window has strict capacity for the call's own timestamp. -/
def traceSafe : RateLimiter → List Nat → Prop
  | _, [] => True
  | rl, t :: ts =>
    (pruneRequests t rl.requests).length ≤ rl.requests_per_minute ∧
    (pruneRequests (t + (wait_if_needed rl t).2)
        (pruneRequests t rl.requests)).length < rl.requests_per_minute ∧
    traceSafe (wait_if_needed rl t).1 ts

theorem pruneRequests_idem (t : Nat) (reqs : List Nat) :
    pruneRequests t (pruneRequests t reqs) = pruneRequests t reqs := by
  apply List.filter_eq_self.mpr
  intro a ha
  exact (List.mem_filter.mp ha).2

/-- Single-call step: from a state whose pruned window is within the
limit and whose timestamps are in the past, the window without the
call's own timestamp is strictly below the limit by wake-up time, and
the invariant still holds at any time at or after wake-up. -/
theorem wait_if_needed_step (rl : RateLimiter) (now : Nat)
    (hrpm : 1 ≤ rl.requests_per_minute)
    (hpast : ∀ x ∈ rl.requests, x ≤ now)
    (hinv : (pruneRequests now rl.requests).length ≤ rl.requests_per_minute) :
    (∀ x ∈ (wait_if_needed rl now).1.requests, x ≤ now + (wait_if_needed rl now).2) ∧
    (∀ t', now + (wait_if_needed rl now).2 ≤ t' →
      (pruneRequests t' (wait_if_needed rl now).1.requests).length
        ≤ rl.requests_per_minute) ∧
    (pruneRequests (now + (wait_if_needed rl now).2)
        (pruneRequests now rl.requests)).length < rl.requests_per_minute := by
  have hsub : ∀ x ∈ pruneRequests now rl.requests, x ≤ now := fun x hx =>
    hpast x (List.mem_of_mem_filter hx)
  have hfresh : ∀ x ∈ pruneRequests now rl.requests, now - x < 60 := by
    intro x hx
    exact of_decide_eq_true (List.mem_filter.mp hx).2
  have hreq : (wait_if_needed rl now).1.requests
      = pruneRequests now rl.requests ++ [now] := rfl
  have hsl : (wait_if_needed rl now).2 = sleepNeeded rl now := rfl
  refine ⟨?_, ?_, ?_⟩
  · intro x hx
    rw [hreq, List.mem_append, List.mem_singleton] at hx
    rcases hx with hx | hx
    · exact le_trans (hsub x hx) (Nat.le_add_right _ _)
    · omega
  · intro t' ht'
    have hsplit : pruneRequests t' (pruneRequests now rl.requests ++ [now])
        = pruneRequests t' (pruneRequests now rl.requests)
          ++ pruneRequests t' [now] := List.filter_append _ _
    rw [hreq, hsplit, List.length_append]
    have hone : (pruneRequests t' [now]).length ≤ 1 := by
      have := List.length_filter_le (fun t => t' - t < 60) [now]
      simpa [pruneRequests] using this
    by_cases hfull : rl.requests_per_minute ≤ (pruneRequests now rl.requests).length
    · obtain ⟨h0, rest, hP⟩ : ∃ h0 rest,
          pruneRequests now rl.requests = h0 :: rest := by
        cases hp : pruneRequests now rl.requests with
        | nil => rw [hp] at hfull; simp at hfull; omega
        | cons a l => exact ⟨a, l, rfl⟩
      have hs : sleepNeeded rl now = 60 - (now - h0) := by
        unfold sleepNeeded
        rw [if_pos hfull, hP]
        rfl
      have h0mem : h0 ∈ pruneRequests now rl.requests := by
        rw [hP]; exact List.mem_cons_self _ _
      have h0le : h0 ≤ now := hsub h0 h0mem
      have h0fr : now - h0 < 60 := hfresh h0 h0mem
      have hw : h0 + 60 ≤ t' := by
        rw [hsl, hs] at ht'; omega
      have hdrop : pruneRequests t' (pruneRequests now rl.requests)
          = pruneRequests t' rest := by
        rw [hP]
        simp only [pruneRequests, List.filter_cons]
        rw [if_neg (by simp; omega)]
      have hlenP : (pruneRequests now rl.requests).length
          = rl.requests_per_minute := le_antisymm hinv hfull
      have hrest : rest.length + 1 = rl.requests_per_minute := by
        rw [hP] at hlenP
        simpa using hlenP
      have : (pruneRequests t' rest).length ≤ rest.length :=
        List.length_filter_le _ _
      rw [hdrop]
      omega
    · have : (pruneRequests t' (pruneRequests now rl.requests)).length
          ≤ (pruneRequests now rl.requests).length :=
        List.length_filter_le _ _
      omega
  · by_cases hfull : rl.requests_per_minute ≤ (pruneRequests now rl.requests).length
    · obtain ⟨h0, rest, hP⟩ : ∃ h0 rest,
          pruneRequests now rl.requests = h0 :: rest := by
        cases hp : pruneRequests now rl.requests with
        | nil => rw [hp] at hfull; simp at hfull; omega
        | cons a l => exact ⟨a, l, rfl⟩
      have hs : sleepNeeded rl now = 60 - (now - h0) := by
        unfold sleepNeeded
        rw [if_pos hfull, hP]
        rfl
      have h0mem : h0 ∈ pruneRequests now rl.requests := by
        rw [hP]; exact List.mem_cons_self _ _
      have h0le : h0 ≤ now := hsub h0 h0mem
      have h0fr : now - h0 < 60 := hfresh h0 h0mem
      have hw : h0 + 60 ≤ now + (wait_if_needed rl now).2 := by
        rw [hsl, hs]; omega
      have hdrop : pruneRequests (now + (wait_if_needed rl now).2)
          (pruneRequests now rl.requests)
          = pruneRequests (now + (wait_if_needed rl now).2) rest := by
        rw [hP]
        simp only [pruneRequests, List.filter_cons]
        rw [if_neg (by simp; omega)]
      have hlenP : (pruneRequests now rl.requests).length
          = rl.requests_per_minute := le_antisymm hinv hfull
      have hrest : rest.length + 1 = rl.requests_per_minute := by
        rw [hP] at hlenP
        simpa using hlenP
      have : (pruneRequests (now + (wait_if_needed rl now).2) rest).length
          ≤ rest.length := List.length_filter_le _ _
      rw [hdrop]
      omega
    · have hs0 : (wait_if_needed rl now).2 = 0 := by
        rw [hsl]
        unfold sleepNeeded
        rw [if_neg hfull]
      rw [hs0, Nat.add_zero, pruneRequests_idem]
      omega

theorem pruneRequests_length_mono (t t' : Nat) (reqs : List Nat) (h : t ≤ t') :
    (pruneRequests t' reqs).length ≤ (pruneRequests t reqs).length := by
  apply List.Sublist.length_le
  apply List.monotone_filter_right
  intro a ha
  have h1 : t' - a < 60 := of_decide_eq_true ha
  exact decide_eq_true (by omega)

/-! ### Claim C8 — sliding-window invariant and blocking -/

/-- C8: starting from a freshly constructed rate limiter (empty window)
with `requests_per_minute ≥ 1`, along any temporally valid call trace
every call finds at most `requests_per_minute` timestamps remaining in
the pruned sliding one-minute window, and blocks (sleeps) until the
window has strict capacity before recording its own timestamp. -/
theorem rate_limiter_window_invariant (rpm burst : Nat) (ts : List Nat)
    (hrpm : 1 ≤ rpm)
    (hvalid : traceValid ⟨rpm, burst, []⟩ 0 ts) :
    traceSafe ⟨rpm, burst, []⟩ ts := by
  suffices h : ∀ (ts : List Nat) (rl : RateLimiter) (t0 : Nat),
      1 ≤ rl.requests_per_minute →
      (∀ x ∈ rl.requests, x ≤ t0) →
      (pruneRequests t0 rl.requests).length ≤ rl.requests_per_minute →
      traceValid rl t0 ts → traceSafe rl ts by
    exact h ts ⟨rpm, burst, []⟩ 0 hrpm (by simp) (by simp [pruneRequests]) hvalid
  intro ts
  induction ts with
  | nil =>
    intro rl t0 _ _ _ _
    trivial
  | cons t rest ih =>
    intro rl t0 h1 h2 h3 hv
    obtain ⟨ht0, hv'⟩ := hv
    have h2t : ∀ x ∈ rl.requests, x ≤ t := fun x hx => le_trans (h2 x hx) ht0
    have h3t : (pruneRequests t rl.requests).length ≤ rl.requests_per_minute :=
      le_trans (pruneRequests_length_mono t0 t rl.requests ht0) h3
    have hstep := wait_if_needed_step rl t h1 h2t h3t
    refine ⟨h3t, hstep.2.2, ?_⟩
    have hrpm' : 1 ≤ (wait_if_needed rl t).1.requests_per_minute := h1
    exact ih (wait_if_needed rl t).1 (t + (wait_if_needed rl t).2) hrpm'
      hstep.1 (hstep.2.1 _ le_rfl) hv'

theorem rate_limiter_window_invariant_witness :
    (1 ≤ 1 ∧ traceValid ⟨1, 1, []⟩ 0 [0, 10, 70]) ∧
    traceSafe ⟨1, 1, []⟩ [0, 10, 70] := by
  have hv : traceValid ⟨1, 1, []⟩ 0 [0, 10, 70] := by
    refine ⟨Nat.le_refl 0, ?_, ?_, trivial⟩
    · show 0 + (wait_if_needed ⟨1, 1, []⟩ 0).2 ≤ 10
      decide
    · show 10 + (wait_if_needed (wait_if_needed ⟨1, 1, []⟩ 0).1 10).2 ≤ 70
      decide
  exact ⟨⟨le_rfl, hv⟩, rate_limiter_window_invariant 1 1 [0, 10, 70] le_rfl hv⟩

/-! ## LLM evaluation orchestrator (`llm_integration.LLMEvaluator`) -/

/-- Model of `LLMEvaluator._generate_cache_key`, which hashes `student|ref|fn` with MD5;
the hash is modelled by the hashed content itself. -/
def cacheKeyContent (student ref fn : String) : String :=
  student ++ "|" ++ ref ++ "|" ++ fn

/-- The file-based `ResponseCache`: one entry per key, holding the write
timestamp and the stored verdict. -/
abbrev Cache := List (String × Nat × Verdict)

/-- Model of `ResponseCache.get`: miss on absent key; an expired entry
(`now - cache_time > ttl`) is removed (`cache_file.unlink()`) and
reported as a miss; otherwise the stored verdict is returned with the
cache untouched. -/
def cacheGet (cache : Cache) (key : String) (now ttl : Nat) :
    Option Verdict × Cache :=
  match cache.lookup key with
  | none => (none, cache)
  | some (ts, v) =>
    if ttl < now - ts then (none, cache.filter (fun e => e.1 != key))
    else (some v, cache)

/-- Model of `ResponseCache.set`: overwrite the key's file with a freshly
timestamped entry. -/
def cacheSet (cache : Cache) (key : String) (now : Nat) (v : Verdict) : Cache :=
  (key, now, v) :: cache.filter (fun e => e.1 != key)

/-- A provider: its configured `retry_attempts` plus the behaviour of the
external service on each attempt within one `generate_response` call
(`none` = the HTTP attempt raises, `some r` = response text `r`). -/
structure ProviderModel where
  retry_attempts : Nat
  behavior : Nat → Option String

/-- The retry loop shared by `OllamaProvider.generate_response` and
`OpenAIProvider.generate_response`: up to `retry_attempts` attempts with
`2 ** attempt` seconds of backoff sleep between consecutive attempts;
returns (response on success, HTTP calls made, backoff sleeps).  When
every attempt raises the provider raises, modelled as `none` — as is
`retry_attempts = 0`, where the Python loop body never runs and the
method returns `None`, which the caller's parse step turns into a
failure. -/
def genAttempts (behavior : Nat → Option String) :
    Nat → Nat → Nat → List Nat → Option String × Nat × List Nat
  | _, 0, calls, sleeps => (none, calls, sleeps)
  | attempt, fuel' + 1, calls, sleeps =>
    match behavior attempt with
    | some r => (some r, calls + 1, sleeps)
    | none =>
      if fuel' = 0 then (none, calls + 1, sleeps)
      else genAttempts behavior (attempt + 1) fuel' (calls + 1) (sleeps ++ [2 ^ attempt])

def generate_response (p : ProviderModel) : Option String × Nat × List Nat :=
  genAttempts p.behavior 0 p.retry_attempts 0 []

/-- Model of `LLMEvaluator._parse_comparison_response`: a response whose stripped
text starts with a brace is handed to `json.loads` — abstracted as the
`jsonParse` parameter, `none` when the text is not valid JSON — and a
successfully parsed object is returned as-is; everything else falls back
to the heuristic text parser. -/
def parse_comparison_response (jsonParse : String → Option Verdict)
    (response fn : String) : Verdict :=
  match (if (pyStrip response).head? = some '\x7b' then jsonParse response else none) with
  | some v => v
  | none => parse_text_response response fn

/-- The mutable state touched by one `compare_code` call: cache
configuration and contents, rate limiter, and bookkeeping counters of
HTTP calls made against each provider. -/
structure EvaluatorState where
  cacheEnabled : Bool
  ttl : Nat
  cache : Cache
  rl : RateLimiter
  primaryCalls : Nat
  fallbackCalls : Nat
deriving DecidableEq

/-- The provider attempt loop of `compare_code`: primary first, then
fallback when configured; a provider whose `generate_response` raises is
skipped in favour of the next; returns the parsed verdict (if any)
together with the HTTP calls made against primary and fallback. -/
def providerPhase (jsonParse : String → Option Verdict)
    (primary fallback : Option ProviderModel) (fn : String) :
    Option Verdict × Nat × Nat :=
  match primary with
  | some p =>
    match generate_response p with
    | (some resp, c, _) => (some (parse_comparison_response jsonParse resp fn), c, 0)
    | (none, c, _) =>
      match fallback with
      | some q =>
        match generate_response q with
        | (some resp, c2, _) =>
          (some (parse_comparison_response jsonParse resp fn), c, c2)
        | (none, c2, _) => (none, c, c2)
      | none => (none, c, 0)
  | none =>
    match fallback with
    | some q =>
      match generate_response q with
      | (some resp, c2, _) => (some (parse_comparison_response jsonParse resp fn), 0, c2)
      | (none, c2, _) => (none, 0, 0 + c2)
    | none => (none, 0, 0)

/-- Model of `LLMEvaluator.compare_code`: rate-gate, cache lookup (when caching is
enabled), provider loop, raising
`LLMProviderError("All LLM providers failed to generate response")` when
no provider produced a response, and cache store on success.  `now` is
the call's wall-clock time in seconds. -/
def compare_code (jsonParse : String → Option Verdict)
    (primary fallback : Option ProviderModel) (st : EvaluatorState) (now : Nat)
    (student ref fn : String) : Except String (Verdict × EvaluatorState) :=
  let st1 : EvaluatorState := { st with rl := (wait_if_needed st.rl now).1 }
  let key := cacheKeyContent student ref fn
  match (if st1.cacheEnabled then cacheGet st1.cache key now st1.ttl
         else (none, st1.cache)) with
  | (some v, c') => .ok (v, { st1 with cache := c' })
  | (none, c') =>
    match providerPhase jsonParse primary fallback fn with
    | (none, _, _) => .error "All LLM providers failed to generate response"
    | (some v, pc, fc) =>
      let st2 : EvaluatorState := { st1 with
        cache := c'
        primaryCalls := st1.primaryCalls + pc
        fallbackCalls := st1.fallbackCalls + fc }
      .ok (v, if st2.cacheEnabled then { st2 with cache := cacheSet st2.cache key now v }
              else st2)

theorem cacheGet_cacheSet_hit (c : Cache) (key : String) (n1 n2 ttl : Nat) (v : Verdict)
    (h : n2 - n1 ≤ ttl) :
    cacheGet (cacheSet c key n1 v) key n2 ttl = (some v, cacheSet c key n1 v) := by
  unfold cacheGet cacheSet
  simp only [List.lookup, beq_self_eq_true]
  rw [if_neg (by omega)]

/-! ### Claim C3 — cache round trip without provider calls -/

/-- C3: with caching enabled, once `compare_code` has produced (and
cached) a verdict for a previously uncached (student code, reference
code, function name) triple, a second call with the identical triple
before cache TTL expiry returns a result equal to that verdict and
invokes no provider — both provider call counters are unchanged —
whatever providers and JSON parser serve the second call. -/
theorem compare_code_cache_round_trip
    (jp jp2 : String → Option Verdict) (p f p2 f2 : Option ProviderModel)
    (st0 st1 : EvaluatorState) (n1 n2 : Nat) (student ref fn : String) (v : Verdict)
    (hen : st0.cacheEnabled = true)
    (hmiss : (cacheGet st0.cache (cacheKeyContent student ref fn) n1 st0.ttl).1 = none)
    (h1 : compare_code jp p f st0 n1 student ref fn = .ok (v, st1))
    (httl : n2 - n1 ≤ st0.ttl) :
    ∃ st2, compare_code jp2 p2 f2 st1 n2 student ref fn = .ok (v, st2) ∧
      st2.primaryCalls = st1.primaryCalls ∧
      st2.fallbackCalls = st1.fallbackCalls := by
  unfold compare_code at h1
  dsimp only at h1
  simp only [hen, if_true] at h1
  rcases hcg : cacheGet st0.cache (cacheKeyContent student ref fn) n1 st0.ttl
    with ⟨o, c'⟩
  rw [hcg] at hmiss h1
  dsimp only at hmiss
  subst hmiss
  rcases hpp : providerPhase jp p f fn with ⟨o2, pc, fc⟩
  rw [hpp] at h1
  cases o2 with
  | none => simp at h1
  | some v' =>
    dsimp only at h1
    simp only [hen, if_true, Except.ok.injEq, Prod.mk.injEq] at h1
    obtain ⟨hv, hst⟩ := h1
    subst hv
    subst hst
    unfold compare_code
    dsimp only
    simp only [hen, if_true]
    rw [cacheGet_cacheSet_hit c' (cacheKeyContent student ref fn) n1 n2 st0.ttl v' httl]
    exact ⟨_, rfl, rfl, rfl⟩

/-- Demo orchestrator runs for the cache round trip: a fresh evaluator
state with caching enabled, a primary provider answering on the first
attempt, and the state after the first `compare_code` call. -/
def compareDemoStart : EvaluatorState := ⟨true, 100, [], ⟨5, 5, []⟩, 0, 0⟩

def compareDemoProvider : ProviderModel := ⟨1, fun _ => some "resp"⟩

def compareDemoVerdict : Verdict := parse_text_response "resp" "f"

def compareDemoMid : EvaluatorState :=
  ⟨true, 100, [(cacheKeyContent "s" "r" "f", 0, compareDemoVerdict)], ⟨5, 5, [0]⟩, 1, 0⟩

theorem compare_code_cache_round_trip_witness :
    ∃ st2, compare_code (fun _ => none) none none compareDemoMid 50 "s" "r" "f"
        = .ok (compareDemoVerdict, st2) ∧
      st2.primaryCalls = compareDemoMid.primaryCalls ∧
      st2.fallbackCalls = compareDemoMid.fallbackCalls :=
  compare_code_cache_round_trip (fun _ => none) (fun _ => none)
    (some compareDemoProvider) none none none compareDemoStart compareDemoMid 0 50
    "s" "r" "f" compareDemoVerdict rfl (by decide) (by rfl) (by decide)

/-! ### Claim C7 — provider order, retries, total failure -/

theorem genAttempts_all_fail (behavior : Nat → Option String)
    (hb : ∀ i, behavior i = none) :
    ∀ (fuel attempt calls : Nat) (sleeps : List Nat), 1 ≤ fuel →
      genAttempts behavior attempt fuel calls sleeps
        = (none, calls + fuel, sleeps ++ (List.range' attempt (fuel - 1)).map (2 ^ ·)) := by
  intro fuel
  induction fuel with
  | zero =>
    intro _ _ _ h
    omega
  | succ fuel' ih =>
    intro attempt calls sleeps _
    rw [genAttempts, hb attempt]
    cases fuel' with
    | zero => simp [List.range']
    | succ f'' =>
      rw [if_neg (by omega), ih (attempt + 1) (calls + 1) (sleeps ++ [2 ^ attempt]) (by omega)]
      simp only [Nat.add_sub_cancel, List.range'_succ, List.map_cons, List.append_assoc,
        List.singleton_append, List.cons_append, Prod.mk.injEq, true_and, and_true]
      exact ⟨by omega, by simp⟩

/-- C7: on a cache miss `compare_code` tries the primary provider first
and then the fallback, in that order — a successful primary serves the
verdict with zero fallback calls, a raising primary hands over to the
fallback — and when every configured provider fails it raises the
all-providers-failed error (`LLMProviderError`) and produces no verdict.
Each provider attempt internally retries up to its configured
`retry_attempts` with exponential backoff: a service failing on every
attempt costs exactly `retry_attempts` HTTP calls with backoff sleeps
`2^0, …, 2^(retry_attempts-2)` between consecutive attempts. -/
theorem compare_code_provider_fallback
    (jp : String → Option Verdict) (p q : ProviderModel) (st : EvaluatorState)
    (now : Nat) (student ref fn : String)
    (hmiss : (if st.cacheEnabled
        then cacheGet st.cache (cacheKeyContent student ref fn) now st.ttl
        else (none, st.cache)).1 = none) :
    (∀ resp c sl, generate_response p = (some resp, c, sl) →
      ∃ st', compare_code jp (some p) (some q) st now student ref fn
          = .ok (parse_comparison_response jp resp fn, st') ∧
        st'.primaryCalls = st.primaryCalls + c ∧
        st'.fallbackCalls = st.fallbackCalls) ∧
    (∀ c sl resp c2 sl2, generate_response p = (none, c, sl) →
      generate_response q = (some resp, c2, sl2) →
      ∃ st', compare_code jp (some p) (some q) st now student ref fn
          = .ok (parse_comparison_response jp resp fn, st') ∧
        st'.primaryCalls = st.primaryCalls + c ∧
        st'.fallbackCalls = st.fallbackCalls + c2) ∧
    (∀ c sl c2 sl2, generate_response p = (none, c, sl) →
      generate_response q = (none, c2, sl2) →
      compare_code jp (some p) (some q) st now student ref fn
        = .error "All LLM providers failed to generate response") ∧
    (1 ≤ p.retry_attempts → (∀ i, p.behavior i = none) →
      generate_response p
        = (none, p.retry_attempts, (List.range (p.retry_attempts - 1)).map (2 ^ ·))) := by
  rcases hcg : (if st.cacheEnabled
      then cacheGet st.cache (cacheKeyContent student ref fn) now st.ttl
      else (none, st.cache)) with ⟨o, c'⟩
  rw [hcg] at hmiss
  dsimp only at hmiss
  subst hmiss
  refine ⟨?_, ?_, ?_, ?_⟩
  · intro resp c sl hp
    unfold compare_code providerPhase
    dsimp only
    rw [show (if ({ st with rl := (wait_if_needed st.rl now).1 }
          : EvaluatorState).cacheEnabled then cacheGet st.cache
          (cacheKeyContent student ref fn) now st.ttl else (none, st.cache))
        = (none, c') from hcg, hp]
    refine ⟨_, rfl, ?_, ?_⟩ <;> (split <;> rfl)
  · intro c sl resp c2 sl2 hp hq
    unfold compare_code providerPhase
    dsimp only
    rw [show (if ({ st with rl := (wait_if_needed st.rl now).1 }
          : EvaluatorState).cacheEnabled then cacheGet st.cache
          (cacheKeyContent student ref fn) now st.ttl else (none, st.cache))
        = (none, c') from hcg, hp, hq]
    refine ⟨_, rfl, ?_, ?_⟩ <;> (split <;> rfl)
  · intro c sl c2 sl2 hp hq
    unfold compare_code providerPhase
    dsimp only
    rw [show (if ({ st with rl := (wait_if_needed st.rl now).1 }
          : EvaluatorState).cacheEnabled then cacheGet st.cache
          (cacheKeyContent student ref fn) now st.ttl else (none, st.cache))
        = (none, c') from hcg, hp, hq]
  · intro h1 hb
    unfold generate_response
    rw [genAttempts_all_fail p.behavior hb p.retry_attempts 0 0 [] h1]
    simp [List.range_eq_range']

/-- Scenario for the provider-order claim: a primary whose service fails
on both attempts and a fallback answering immediately, with caching
disabled. -/
def c7Primary : ProviderModel := ⟨2, fun _ => none⟩

def c7Fallback : ProviderModel := ⟨1, fun _ => some "ok"⟩

def c7Start : EvaluatorState := ⟨false, 100, [], ⟨5, 5, []⟩, 0, 0⟩

theorem compare_code_provider_fallback_witness :
    generate_response c7Primary = (none, 2, [1]) ∧
    (∃ st', compare_code (fun _ => none) (some c7Primary) (some c7Fallback) c7Start 0
        "s" "r" "f" = .ok (parse_comparison_response (fun _ => none) "ok" "f", st') ∧
      st'.primaryCalls = c7Start.primaryCalls + 2 ∧
      st'.fallbackCalls = c7Start.fallbackCalls + 1) := by
  have h := compare_code_provider_fallback (fun _ => none) c7Primary c7Fallback c7Start 0
    "s" "r" "f" (by rfl)
  exact ⟨h.2.2.2 (by decide) (fun i => rfl), h.2.1 2 [1] "ok" 1 [] (by rfl) (by rfl)⟩

/-! ## Reference softmax (`reference_attention.compute_attention_weights`)

`F.softmax(attention_scores, dim=-1)` applies softmax along the last
dimension.  A scores tensor is modelled as the list of its
last-dimension rows over the real numbers (the idealisation of float32
arithmetic); softmax acts independently on each row. -/

noncomputable def softmaxRow (row : List ℝ) : List ℝ :=
  row.map (fun x => Real.exp x / (row.map Real.exp).sum)

/-- Model of `compute_attention_weights`: softmax over the last dimension. -/
noncomputable def compute_attention_weights (scores : List (List ℝ)) : List (List ℝ) :=
  scores.map softmaxRow

theorem sum_map_div (l : List ℝ) (f : ℝ → ℝ) (s : ℝ) :
    (l.map (fun x => f x / s)).sum = (l.map f).sum / s := by
  induction l with
  | nil => simp
  | cons a rest ih =>
    simp only [List.map_cons, List.sum_cons, ih, add_div]

theorem sum_map_exp_pos (l : List ℝ) (h : l ≠ []) : 0 < (l.map Real.exp).sum := by
  cases l with
  | nil => exact absurd rfl h
  | cons a rest =>
    simp only [List.map_cons, List.sum_cons]
    apply add_pos_of_pos_of_nonneg (Real.exp_pos a)
    apply List.sum_nonneg
    intro x hx
    obtain ⟨y, _, hy⟩ := List.mem_map.mp hx
    rw [← hy]
    exact le_of_lt (Real.exp_pos y)

/-! ### Claim C9 — softmax rows are a probability distribution -/

/-- C9: for any scores tensor (with rows present, as in every pipeline
shape), each row of `compute_attention_weights scores` sums to 1 within
the 1e-6 tolerance — in the real-number idealisation the sum is exactly
1 — and contains no negative entries. -/
theorem attention_weights_rows_sum_one (scores : List (List ℝ))
    (h : ∀ row ∈ scores, row ≠ []) :
    ∀ row ∈ compute_attention_weights scores,
      |row.sum - 1| ≤ 1 / 1000000 ∧ ∀ x ∈ row, 0 ≤ x := by
  intro row hrow
  obtain ⟨r, hr, hmap⟩ := List.mem_map.mp hrow
  have hne : r ≠ [] := h r hr
  have hpos : 0 < (r.map Real.exp).sum := sum_map_exp_pos r hne
  subst hmap
  constructor
  · have hsum : (softmaxRow r).sum = 1 := by
      unfold softmaxRow
      rw [sum_map_div, div_self (ne_of_gt hpos)]
    rw [hsum]
    simp
  · intro x hx
    obtain ⟨y, _, hy⟩ := List.mem_map.mp hx
    rw [← hy]
    positivity

theorem attention_weights_rows_sum_one_witness :
    (∀ row ∈ [[(0 : ℝ), 0]], row ≠ []) ∧
    (∀ row ∈ compute_attention_weights [[(0 : ℝ), 0]],
      |row.sum - 1| ≤ 1 / 1000000 ∧ ∀ x ∈ row, 0 ≤ x) :=
  ⟨by simp, attention_weights_rows_sum_one [[(0 : ℝ), 0]] (by simp)⟩

/-! ## Grade aggregation (`evaluation.grade_notebook`)

The scoring loop of `grade_notebook`: per section, an implemented
function (`implementation_info['code']` truthy, i.e. non-empty)
contributes its LLM verdict's `score` to `overall_scores` when that
score is not `None`; a missing implementation contributes `0`; the
tensor-validation verdict is stored in the report but never collected
into `overall_scores`.  `overall_score = np.mean(overall_scores)` (or 0
when empty); scores are modelled as rationals. -/

structure SectionOutcome where
  code : String
  llmScore : Option ℚ
  tensorValid : Bool
deriving DecidableEq

/-- The `overall_scores` list collected by the loop. -/
def sectionScores : List SectionOutcome → List ℚ
  | [] => []
  | s :: rest =>
    (if s.code ≠ "" then
      (match s.llmScore with
       | some q => [q]
       | none => [])
     else [(0 : ℚ)]) ++ sectionScores rest

/-- Computes `overall_score = np.mean(overall_scores) if overall_scores else 0`. -/
def overall_score (secs : List SectionOutcome) : ℚ :=
  if sectionScores secs = [] then 0
  else (sectionScores secs).sum / ((sectionScores secs).length : ℚ)

theorem sectionScores_tensor_irrelevant (g : SectionOutcome → Bool)
    (secs : List SectionOutcome) :
    sectionScores (secs.map (fun s => { s with tensorValid := g s }))
      = sectionScores secs := by
  induction secs with
  | nil => rfl
  | cons s rest ih =>
    simp only [List.map_cons, sectionScores, ih]

theorem sectionScores_of_scored (secs : List SectionOutcome)
    (h : ∀ s ∈ secs, s.code ≠ "" → s.llmScore.isSome) :
    sectionScores secs
      = secs.map (fun s => if s.code ≠ "" then s.llmScore.getD 0 else 0) := by
  induction secs with
  | nil => rfl
  | cons s rest ih =>
    simp only [sectionScores, List.map_cons]
    rw [ih (fun t ht => h t (List.mem_cons_of_mem s ht))]
    by_cases hc : s.code ≠ ""
    · have hsome := h s (List.mem_cons_self s rest) hc
      obtain ⟨q, hq⟩ := Option.isSome_iff_exists.mp hsome
      rw [if_pos hc, if_pos hc, hq]
      rfl
    · rw [if_neg hc, if_neg hc]
      rfl

/-! ### Claim C10 — overall score is the mean of LLM scores alone -/

/-- C10: the report's `overall_score` is a function of implementation
presence and LLM verdict scores only — replacing every section's
tensor-validation verdict leaves it unchanged, so a section whose tensor
test fails but whose LLM verdict score is `s` still contributes exactly
`s` — and when every implemented section's verdict carries a score it
equals the arithmetic mean over sections of the LLM score
(0 for sections with no implementation). -/
theorem overall_score_llm_mean (secs : List SectionOutcome) :
    (∀ g : SectionOutcome → Bool,
      overall_score (secs.map (fun s => { s with tensorValid := g s }))
        = overall_score secs) ∧
    ((∀ s ∈ secs, s.code ≠ "" → s.llmScore.isSome) → secs ≠ [] →
      overall_score secs
        = (secs.map (fun s => if s.code ≠ "" then s.llmScore.getD 0 else 0)).sum
          / (secs.length : ℚ)) := by
  constructor
  · intro g
    unfold overall_score
    rw [sectionScores_tensor_irrelevant g secs]
  · intro hall hne
    unfold overall_score
    rw [sectionScores_of_scored secs hall]
    rw [if_neg (by simpa using hne)]
    rw [List.length_map]

/-- One graded section with a failing tensor test but LLM score 80, one
unimplemented section. -/
def gradeDemo : List SectionOutcome :=
  [⟨"def create_qkv_projections(e): ...", some 80, false⟩, ⟨"", none, false⟩]

theorem overall_score_llm_mean_witness :
    overall_score (gradeDemo.map (fun s => { s with tensorValid := true }))
        = overall_score gradeDemo ∧
    overall_score gradeDemo
      = (gradeDemo.map (fun s => if s.code ≠ "" then s.llmScore.getD 0 else 0)).sum
        / (gradeDemo.length : ℚ) :=
  ⟨(overall_score_llm_mean gradeDemo).1 (fun _ => true),
   (overall_score_llm_mean gradeDemo).2 (by decide) (by decide)⟩
